import Mathlib

/-!
Shallow embedding of the loro text-CRDT core described by the repository
specification.  The repository's visible source is the FFI usage example
(crates/loro-ffi/examples/loro.cpp); the engine, allocator, index translator,
registry and document that the example exercises are not part of the visible
source, so they are modelled here from the specification, component by
component.  The example program itself is embedded at the end.
-/

namespace Loro

/-- Modelled from the spec: an Identifier is a pair of
(origin-replica-id, per-replica monotonic counter), totally ordered by
(counter, replica-id) for tie-break. -/
structure Id where
  replica : Nat
  counter : Nat
deriving DecidableEq

/-- Modelled from the spec: the total order on Identifiers, by
(counter, replica-id). -/
def idLt (a b : Id) : Prop :=
  a.counter < b.counter ∨ (a.counter = b.counter ∧ a.replica < b.replica)

instance : DecidableRel idLt := fun a b => by
  unfold idLt
  infer_instance

/-- Modelled from the spec: an Element is one inserted atomic unit of content,
carrying its identifier, value, left-origin identifier (none is the start
sentinel) and tombstone flag. -/
structure Element where
  id : Id
  value : Char
  origin : Option Id
  tomb : Bool
deriving DecidableEq

/-- Modelled from the spec: the error taxonomy of the core. -/
inductive Err where
  | unknownOrigin
  | indexOutOfRange
  | useAfterRelease
  | capacityExceeded
deriving DecidableEq

instance {ε α : Type _} [DecidableEq ε] [DecidableEq α] : DecidableEq (Except ε α) := fun x y =>
  match x, y with
  | Except.ok a, Except.ok b =>
    if h : a = b then isTrue (by rw [h]) else isFalse (fun hc => h (by injection hc))
  | Except.ok _, Except.error _ => isFalse (fun hc => Except.noConfusion hc)
  | Except.error _, Except.ok _ => isFalse (fun hc => Except.noConfusion hc)
  | Except.error a, Except.error b =>
    if h : a = b then isTrue (by rw [h]) else isFalse (fun hc => h (by injection hc))

/-- Modelled from the spec: the backing store of a Sequence is an arena of
Elements; origins are resolved through a lookup by identifier. -/
def lookup (s : List Element) (i : Id) : Option Element :=
  s.find? (fun e => e.id == i)

def idsOf (s : List Element) : List Id :=
  s.map (fun e => e.id)

def nodupIds (s : List Element) : Prop :=
  (idsOf s).Nodup

instance (s : List Element) : Decidable (nodupIds s) := by
  unfold nodupIds
  infer_instance

/-- Position paths: the chain of identifiers from a root element down to the
given origin, resolved through the arena.  Fuel bounds the chain length. -/
def pathTo (s : List Element) : Nat → Option Id → List Id
  | _, none => []
  | 0, some _ => []
  | f + 1, some i =>
    match lookup s i with
    | none => []
    | some e => pathTo s f e.origin ++ [i]

/-- The position path of an Element: the path of its origin extended by its
own identifier. -/
def pathOf (s : List Element) (e : Element) : List Id :=
  pathTo s s.length e.origin ++ [e.id]

/-- Strict order on position paths: an ancestor precedes its descendants
(proper-prefix-first), and at the first divergence the lower identifier sorts
first — the spec's tie-break among concurrent inserts at one anchor. -/
def pathLt : List Id → List Id → Prop
  | [], [] => False
  | [], _ :: _ => True
  | _ :: _, [] => False
  | a :: as, b :: bs => idLt a b ∨ (a = b ∧ pathLt as bs)

def decPathLt : (p q : List Id) → Decidable (pathLt p q)
  | [], [] => isFalse (fun h => h)
  | [], _ :: _ => isTrue trivial
  | _ :: _, [] => isFalse (fun h => h)
  | a :: as, b :: bs =>
    haveI : Decidable (pathLt as bs) := decPathLt as bs
    decidable_of_iff (idLt a b ∨ (a = b ∧ pathLt as bs)) Iff.rfl

instance : DecidableRel pathLt := decPathLt

def pathLe (p q : List Id) : Prop := ¬ pathLt q p

instance : DecidableRel pathLe := fun p q => by
  unfold pathLe
  infer_instance

/-- The derived order on Elements of an arena, by position path. -/
def elemLe (s : List Element) (a b : Element) : Prop :=
  pathLe (pathOf s a) (pathOf s b)

instance (s : List Element) : DecidableRel (elemLe s) := fun a b => by
  unfold elemLe
  infer_instance

/-- Modelled from the spec: the visible order is a deterministic function of
the Element set and the origin links — realised by sorting the arena by
position path. -/
def linearize (s : List Element) : List Element :=
  List.insertionSort (elemLe s) s

def visibleElems (s : List Element) : List Element :=
  (linearize s).filter (fun e => !e.tomb)

def visibleCount (s : List Element) : Nat :=
  (visibleElems s).length

/-- Modelled from the spec: materialize() produces the values of all
non-tombstoned Elements in order. -/
def materialize (s : List Element) : List Char :=
  (visibleElems s).map (fun e => e.value)

/- ## Order lemmas -/

theorem idLt_irrefl (a : Id) : ¬ idLt a a := by
  unfold idLt
  omega

theorem idLt_trans {a b c : Id} (h1 : idLt a b) (h2 : idLt b c) : idLt a c := by
  unfold idLt at *
  omega

theorem idLt_antisymm {a b : Id} (h1 : ¬ idLt a b) (h2 : ¬ idLt b a) : a = b := by
  cases a
  cases b
  unfold idLt at *
  simp only [Id.mk.injEq]
  simp only [not_or, not_and, not_lt] at h1 h2
  omega

theorem pathLt_trans : ∀ {p q r : List Id}, pathLt p q → pathLt q r → pathLt p r
  | [], [], _, h1, _ => absurd h1 (fun h => h)
  | [], _ :: _, [], _, h2 => absurd h2 (fun h => h)
  | [], _ :: _, _ :: _, _, _ => trivial
  | _ :: _, [], _, h1, _ => absurd h1 (fun h => h)
  | _ :: _, _ :: _, [], _, h2 => absurd h2 (fun h => h)
  | a :: as, b :: bs, c :: cs, h1, h2 => by
    rcases h1 with h1 | ⟨rfl, h1⟩
    · rcases h2 with h2 | ⟨rfl, h2⟩
      · exact Or.inl (idLt_trans h1 h2)
      · exact Or.inl h1
    · rcases h2 with h2 | ⟨rfl, h2⟩
      · exact Or.inl h2
      · exact Or.inr ⟨rfl, pathLt_trans h1 h2⟩

theorem pathLt_irrefl : ∀ (p : List Id), ¬ pathLt p p
  | [] => fun h => h
  | a :: as => by
    intro h
    rcases h with h | ⟨_, h⟩
    · exact idLt_irrefl a h
    · exact pathLt_irrefl as h

theorem pathLt_asymm {p q : List Id} (h1 : pathLt p q) (h2 : pathLt q p) : False :=
  pathLt_irrefl p (pathLt_trans h1 h2)

theorem pathLt_antisymm : ∀ {p q : List Id}, ¬ pathLt p q → ¬ pathLt q p → p = q
  | [], [], _, _ => rfl
  | [], _ :: _, h1, _ => absurd trivial h1
  | _ :: _, [], _, h2 => absurd trivial h2
  | a :: as, b :: bs, h1, h2 => by
    have hab : a = b := by
      apply idLt_antisymm
      · exact fun h => h1 (Or.inl h)
      · exact fun h => h2 (Or.inl h)
    subst hab
    have htail : as = bs :=
      pathLt_antisymm (fun h => h1 (Or.inr ⟨rfl, h⟩)) (fun h => h2 (Or.inr ⟨rfl, h⟩))
    rw [htail]

theorem pathLe_total (p q : List Id) : pathLe p q ∨ pathLe q p := by
  by_cases h : pathLt q p
  · exact Or.inr (fun h2 => pathLt_asymm h h2)
  · exact Or.inl h

theorem pathLe_trans {p q r : List Id} (h1 : pathLe p q) (h2 : pathLe q r) : pathLe p r := by
  intro hrp
  by_cases hrq : pathLt r q
  · exact h2 hrq
  · by_cases hqr : pathLt q r
    · exact h1 (pathLt_trans hqr hrp)
    · have hqr2 : q = r := pathLt_antisymm hqr hrq
      subst hqr2
      exact h1 hrp

/- ## Engine operations -/

def originPresent (s : List Element) : Option Id → Bool
  | none => true
  | some i => (lookup s i).isSome

/-- Modelled from the spec: integrate(element) merges an Element from another
replica into the arena.  Re-integrating an already-present identifier is a
no-op; an absent left-origin fails with UnknownOrigin and nothing is buffered.
The visible position of the merged Element is realised by the deterministic
path order of the arena (lower identifier first among same-anchor siblings). -/
def integrate (s : List Element) (e : Element) : Except Err (List Element) :=
  if (lookup s e.id).isSome then Except.ok s
  else if originPresent s e.origin then Except.ok (s ++ [e])
  else Except.error Err.unknownOrigin

def integrateAll (s : List Element) : List Element → Except Err (List Element)
  | [] => Except.ok s
  | e :: rest =>
    match integrate s e with
    | Except.ok s' => integrateAll s' rest
    | Except.error err => Except.error err

/-- Modelled from the spec: delete(identifier) marks the Element tombstoned;
it never removes the Element from the backing store. -/
def deleteElem (s : List Element) (i : Id) : List Element :=
  s.map (fun e => if e.id = i then ⟨e.id, e.value, e.origin, true⟩ else e)

/-- Modelled from the spec: resolve(visible_index) maps a visible index to an
anchor — the start sentinel for 0, otherwise the identifier of the i-th
non-tombstoned Element — and fails with IndexOutOfRange past the end. -/
def resolve (s : List Element) (idx : Nat) : Except Err (Option Id) :=
  if idx = 0 then Except.ok none
  else
    match (visibleElems s)[idx - 1]? with
    | some e => Except.ok (some e.id)
    | none => Except.error Err.indexOutOfRange

/-- Modelled from the spec: local insertion of a run of characters after an
anchor; each character is anchored at its predecessor, identifiers taken from
a consecutive counter range of the local replica. -/
def insertChars (replica : Nat) : List Element → Option Id → Nat → List Char → List Element
  | s, _, _, [] => s
  | s, anchor, ctr, c :: rest =>
    insertChars replica (s ++ [⟨⟨replica, ctr⟩, c, anchor, false⟩]) (some ⟨replica, ctr⟩) (ctr + 1) rest

/-- Causal well-formation of an operation or arena list: every element's
left-origin is either already seen or provided by an earlier element. -/
def causalAux (seen : List Id) : List Element → Bool
  | [] => true
  | e :: rest =>
    (match e.origin with
     | none => true
     | some o => decide (o ∈ seen)) && causalAux (e.id :: seen) rest

def causallyOrdered (l : List Element) : Bool := causalAux [] l

/- ## Document, registry, allocator and handles -/

/-- Modelled from the spec: a Container handle is a non-owning reference,
carrying the container name and its own released flag. -/
structure TextHandler where
  name : String
  freed : Bool
deriving DecidableEq

/-- Modelled from the spec: a Document owns the container registry (name to
Sequence arena), the Identifier Allocator counter of the local replica, and a
validity flag flipped by release(). -/
structure LoroDoc where
  released : Bool
  replica : Nat
  counter : Nat
  containers : List (String × List Element)
deriving DecidableEq

/-- Modelled from the spec: the allocator's counter precision; overflow past
it fails with CapacityExceeded. -/
def idCap : Nat := 2 ^ 64

def loro_new (replica : Nat) : LoroDoc := ⟨false, replica, 0, []⟩

def getContainer (d : LoroDoc) (n : String) : List Element :=
  match d.containers.lookup n with
  | some s => s
  | none => []

def setContainer (d : LoroDoc) (n : String) (s : List Element) : LoroDoc :=
  ⟨d.released, d.replica, d.counter,
    if (d.containers.lookup n).isSome then
      d.containers.map (fun p => if p.1 = n then (n, s) else p)
    else
      d.containers ++ [(n, s)]⟩

/-- Modelled from the spec: allocate_range(n) reserves n consecutive counter
values for the local replica and returns the identifier of the first; counter
overflow fails with CapacityExceeded. -/
def allocate_range (d : LoroDoc) (n : Nat) : Except Err (Id × LoroDoc) :=
  if idCap < d.counter + n then Except.error Err.capacityExceeded
  else Except.ok (⟨d.replica, d.counter⟩, ⟨d.released, d.replica, d.counter + n, d.containers⟩)

/-- Modelled from the spec: get_or_create of a named text container; fails
with UseAfterRelease on a released document. -/
def loro_get_text (d : LoroDoc) (n : String) : Except Err (TextHandler × LoroDoc) :=
  if d.released then Except.error Err.useAfterRelease
  else if (d.containers.lookup n).isSome then Except.ok (⟨n, false⟩, d)
  else Except.ok (⟨n, false⟩, ⟨d.released, d.replica, d.counter, d.containers ++ [(n, [])]⟩)

/-- Modelled from the spec: insertion of a string at a visible index through
the Index Translator, allocating a consecutive identifier range. -/
def text_insert (h : TextHandler) (d : LoroDoc) (idx : Nat) (cs : List Char) :
    Except Err LoroDoc :=
  if d.released then Except.error Err.useAfterRelease
  else
    match resolve (getContainer d h.name) idx with
    | Except.error err => Except.error err
    | Except.ok anchor =>
      match allocate_range d cs.length with
      | Except.error err => Except.error err
      | Except.ok (first, d') =>
        Except.ok (setContainer d' h.name
          (insertChars d.replica (getContainer d h.name) anchor first.counter cs))

/-- Modelled from the spec: materialize value of a container (owned copy);
fails with UseAfterRelease on a released document. -/
def text_value (h : TextHandler) (d : LoroDoc) : Except Err (List Char) :=
  if d.released then Except.error Err.useAfterRelease
  else Except.ok (materialize (getContainer d h.name))

def loro_delete (d : LoroDoc) (n : String) (i : Id) : Except Err LoroDoc :=
  if d.released then Except.error Err.useAfterRelease
  else Except.ok (setContainer d n (deleteElem (getContainer d n) i))

/-- Modelled from the spec: document-level integration of a remote Element;
the engine's error is propagated unchanged to the immediate caller. -/
def loro_integrate (d : LoroDoc) (n : String) (e : Element) : Except Err LoroDoc :=
  if d.released then Except.error Err.useAfterRelease
  else
    match integrate (getContainer d n) e with
    | Except.ok s' => Except.ok (setContainer d n s')
    | Except.error err => Except.error err

/-- Modelled from the spec: releasing a container handle; a no-op when the
handle is already released. -/
def text_free (h : TextHandler) : TextHandler := ⟨h.name, true⟩

/-- Modelled from the spec: release() invalidates the document and thereby
all outstanding container handles; a no-op when already released. -/
def loro_free (d : LoroDoc) : LoroDoc := ⟨true, d.replica, d.counter, d.containers⟩

/-- One step of a document's lifetime, for stating lifetime-wide invariants.
Failed operations leave the document unchanged. -/
inductive DocOp where
  | getText (n : String)
  | insertOp (n : String) (idx : Nat) (cs : List Char)
  | deleteOp (n : String) (i : Id)
  | allocOp (n : Nat)
  | integrateOp (n : String) (e : Element)
  | releaseOp

def applyOp (d : LoroDoc) : DocOp → LoroDoc
  | DocOp.getText n =>
    match loro_get_text d n with
    | Except.ok p => p.2
    | Except.error _ => d
  | DocOp.insertOp n idx cs =>
    match text_insert ⟨n, false⟩ d idx cs with
    | Except.ok d' => d'
    | Except.error _ => d
  | DocOp.deleteOp n i =>
    match loro_delete d n i with
    | Except.ok d' => d'
    | Except.error _ => d
  | DocOp.allocOp n =>
    match allocate_range d n with
    | Except.ok p => p.2
    | Except.error _ => d
  | DocOp.integrateOp n e =>
    match loro_integrate d n e with
    | Except.ok d' => d'
    | Except.error _ => d
  | DocOp.releaseOp => loro_free d

def applyOps (d : LoroDoc) (ops : List DocOp) : LoroDoc := ops.foldl applyOp d

/- ## The concrete scenario elements and the example program -/

def elA : Element := ⟨⟨0, 0⟩, 'a', none, false⟩

def elB : Element := ⟨⟨0, 1⟩, 'b', some ⟨0, 0⟩, false⟩

def elC : Element := ⟨⟨0, 2⟩, 'c', some ⟨0, 1⟩, false⟩

def elX : Element := ⟨⟨1, 0⟩, 'X', some ⟨0, 0⟩, false⟩

/-- The document state after loro_new and loro_get_text in the example. -/
def exampleDoc1 : LoroDoc := ⟨false, 0, 0, [("text", [])]⟩

/-- The document state after the example's text_insert of "abc" at index 0. -/
def exampleDoc2 : LoroDoc := ⟨false, 0, 3, [("text", [elA, elB, elC])]⟩

/-- The example program crates/loro-ffi/examples/loro.cpp, embedded call by
call: loro_new, loro_get_text, text_insert of "abc" at index 0, text_value,
then text_free and loro_free last.  Any error of a call propagates. -/
def exampleProgram : Except Err (List Char) :=
  match loro_get_text (loro_new 0) ("text") with
  | Except.error err => Except.error err
  | Except.ok (h, d1) =>
    match text_insert h d1 0 ('a' :: 'b' :: 'c' :: []) with
    | Except.error err => Except.error err
    | Except.ok d2 =>
      match text_value h d2 with
      | Except.error err => Except.error err
      | Except.ok str =>
        match text_free h, loro_free d2 with
        | _, _ => Except.ok str

/- ## Lookup lemmas -/

theorem lookup_mem {s : List Element} {i : Id} {e : Element}
    (h : lookup s i = some e) : e ∈ s ∧ e.id = i := by
  refine ⟨List.mem_of_find?_eq_some h, ?_⟩
  have := List.find?_some h
  simpa using this

theorem lookup_eq_none {s : List Element} {i : Id} :
    lookup s i = none ↔ ∀ e ∈ s, e.id ≠ i := by
  unfold lookup
  rw [List.find?_eq_none]
  simp

theorem lookup_isSome_iff {s : List Element} {i : Id} :
    (lookup s i).isSome = true ↔ ∃ e ∈ s, e.id = i := by
  unfold lookup
  rw [List.find?_isSome]
  simp

theorem nodup_elem_eq {s : List Element} (hn : nodupIds s) {a b : Element}
    (ha : a ∈ s) (hb : b ∈ s) (hid : a.id = b.id) : a = b :=
  List.inj_on_of_nodup_map hn ha hb hid

theorem mem_lookup {s : List Element} (hn : nodupIds s) {e : Element}
    (he : e ∈ s) : lookup s e.id = some e := by
  have hsome : (lookup s e.id).isSome = true := lookup_isSome_iff.mpr ⟨e, he, rfl⟩
  obtain ⟨e', he'⟩ := Option.isSome_iff_exists.mp hsome
  obtain ⟨hmem, hid⟩ := lookup_mem he'
  rw [he']
  rw [nodup_elem_eq hn hmem he hid]

theorem lookup_perm {s1 s2 : List Element} (hp : s1.Perm s2) (hn : nodupIds s1)
    (i : Id) : lookup s1 i = lookup s2 i := by
  have hn2 : nodupIds s2 := by
    have hm : (idsOf s1).Perm (idsOf s2) := by
      unfold idsOf
      exact hp.map _
    exact hm.nodup_iff.mp hn
  cases h1 : lookup s1 i with
  | none =>
    symm
    rw [lookup_eq_none]
    intro e he
    exact (lookup_eq_none.mp h1) e (hp.mem_iff.mpr he)
  | some e =>
    obtain ⟨hmem, hid⟩ := lookup_mem h1
    symm
    subst hid
    exact mem_lookup hn2 (hp.mem_iff.mp hmem)

theorem pathTo_perm {s1 s2 : List Element} (hp : s1.Perm s2) (hn : nodupIds s1) :
    ∀ (f : Nat) (oid : Option Id), pathTo s1 f oid = pathTo s2 f oid := by
  intro f
  induction f with
  | zero =>
    intro oid
    cases oid <;> rfl
  | succ f ih =>
    intro oid
    cases oid with
    | none => rfl
    | some i =>
      have hu : ∀ (s : List Element), pathTo s (f + 1) (some i) =
          (match lookup s i with
           | none => []
           | some e => pathTo s f e.origin ++ [i]) := fun _ => rfl
      rw [hu, hu, lookup_perm hp hn i]
      cases lookup s2 i with
      | none => rfl
      | some e =>
        show pathTo s1 f e.origin ++ [i] = pathTo s2 f e.origin ++ [i]
        rw [ih]

theorem pathOf_perm {s1 s2 : List Element} (hp : s1.Perm s2) (hn : nodupIds s1)
    (e : Element) : pathOf s1 e = pathOf s2 e := by
  unfold pathOf
  rw [pathTo_perm hp hn, hp.length_eq]

theorem nodupIds_perm {s1 s2 : List Element} (hp : s1.Perm s2) (hn : nodupIds s1) :
    nodupIds s2 := by
  have hm : (idsOf s1).Perm (idsOf s2) := by
    unfold idsOf
    exact hp.map _
  exact hm.nodup_iff.mp hn

/-- Two sorted lists that are permutations of each other agree, provided the
order is antisymmetric on the members of the first. -/
theorem sorted_eq_of_perm {α : Type _} {R : α → α → Prop} :
    ∀ {l1 l2 : List α}, l1.Perm l2 → l1.Pairwise R → l2.Pairwise R →
      (∀ a ∈ l1, ∀ b ∈ l1, R a b → R b a → a = b) → l1 = l2 := by
  intro l1
  induction l1 with
  | nil =>
    intro l2 hp _ _ _
    exact (hp.symm.eq_nil).symm
  | cons a t1 ih =>
    intro l2 hp h1 h2 hanti
    cases l2 with
    | nil => exact absurd hp.length_eq (by simp)
    | cons b t2 =>
      by_cases hab : a = b
      · subst hab
        have hp' := hp.cons_inv
        have ht := ih hp' (List.pairwise_cons.mp h1).2 (List.pairwise_cons.mp h2).2
          (fun x hx y hy hxy hyx =>
            hanti x (List.mem_cons_of_mem _ hx) y (List.mem_cons_of_mem _ hy) hxy hyx)
        rw [ht]
      · have ha2 : a ∈ b :: t2 := hp.mem_iff.mp (List.mem_cons_self a t1)
        have ha2' : a ∈ t2 := by
          cases List.mem_cons.mp ha2 with
          | inl h => exact absurd h hab
          | inr h => exact h
        have hb1 : b ∈ a :: t1 := hp.symm.mem_iff.mp (List.mem_cons_self b t2)
        have hb1' : b ∈ t1 := by
          cases List.mem_cons.mp hb1 with
          | inl h => exact absurd h.symm hab
          | inr h => exact h
        have hRab : R a b := (List.pairwise_cons.mp h1).1 b hb1'
        have hRba : R b a := (List.pairwise_cons.mp h2).1 a ha2'
        exact absurd (hanti a (List.mem_cons_self a t1) b hb1 hRab hRba) hab

theorem append_last_eq {p q : List Id} {x y : Id} (h : p ++ [x] = q ++ [y]) : x = y := by
  have h1 := congrArg List.getLast? h
  simp at h1
  exact h1

theorem elemLe_antisymm {s : List Element} (hn : nodupIds s) {a b : Element}
    (ha : a ∈ s) (hb : b ∈ s) (h1 : elemLe s a b) (h2 : elemLe s b a) : a = b := by
  have hpq : pathOf s a = pathOf s b := pathLt_antisymm h2 h1
  have hid : a.id = b.id := append_last_eq hpq
  exact nodup_elem_eq hn ha hb hid

theorem linearize_perm_self (s : List Element) : (linearize s).Perm s :=
  List.perm_insertionSort _ s

theorem linearize_sorted (s : List Element) : (linearize s).Pairwise (elemLe s) :=
  @List.sorted_insertionSort Element (elemLe s) (inferInstance)
    ⟨fun _ _ => pathLe_total _ _⟩ ⟨fun _ _ _ h1 h2 => pathLe_trans h1 h2⟩ s

theorem linearize_perm_eq {s1 s2 : List Element} (hp : s1.Perm s2)
    (hn : nodupIds s1) : linearize s1 = linearize s2 := by
  apply sorted_eq_of_perm (R := elemLe s1)
  · exact (linearize_perm_self s1).trans (hp.trans (linearize_perm_self s2).symm)
  · exact linearize_sorted s1
  · apply (linearize_sorted s2).imp
    intro a b h
    unfold elemLe at *
    rw [pathOf_perm hp hn a, pathOf_perm hp hn b]
    exact h
  · intro a ha b hb hab hba
    exact elemLe_antisymm hn ((linearize_perm_self s1).mem_iff.mp ha)
      ((linearize_perm_self s1).mem_iff.mp hb) hab hba

/-- Convergence of the visible value: materialize() is a function of the
Element set alone. -/
theorem materialize_perm {s1 s2 : List Element} (hp : s1.Perm s2)
    (hn : nodupIds s1) : materialize s1 = materialize s2 := by
  unfold materialize visibleElems
  rw [linearize_perm_eq hp hn]

/- ## Integration of causally ordered operation streams -/

theorem causalAux_congr : ∀ (l : List Element) (seen1 seen2 : List Id),
    (∀ x, x ∈ seen1 ↔ x ∈ seen2) → causalAux seen1 l = causalAux seen2 l
  | [], _, _, _ => rfl
  | e :: rest, seen1, seen2, h => by
    unfold causalAux
    have htail := causalAux_congr rest (e.id :: seen1) (e.id :: seen2)
      (by
        intro x
        simp only [List.mem_cons]
        exact or_congr Iff.rfl (h x))
    rw [htail]
    cases e.origin with
    | none => rfl
    | some o =>
      show (decide (o ∈ seen1) && causalAux (e.id :: seen2) rest)
        = (decide (o ∈ seen2) && causalAux (e.id :: seen2) rest)
      rw [decide_eq_decide.mpr (h o)]

theorem mem_idsOf {s : List Element} {i : Id} :
    i ∈ idsOf s ↔ ∃ e ∈ s, e.id = i := by
  unfold idsOf
  simp

theorem integrateAll_ok : ∀ (ops s : List Element),
    causalAux (idsOf s) ops = true → nodupIds (s ++ ops) →
    integrateAll s ops = Except.ok (s ++ ops)
  | [], s, _, _ => by simp [integrateAll]
  | e :: rest, s, hc, hn => by
    rw [show causalAux (idsOf s) (e :: rest)
        = ((match e.origin with
            | none => true
            | some o => decide (o ∈ idsOf s)) && causalAux (e.id :: idsOf s) rest)
      from rfl, Bool.and_eq_true] at hc
    obtain ⟨hc1, hc2⟩ := hc
    have hfresh : e.id ∉ idsOf s := by
      intro hmem
      have : ¬ (idsOf (s ++ e :: rest)).Nodup → False := fun h => h hn
      unfold nodupIds at hn
      unfold idsOf at hn hmem
      simp only [List.map_append, List.map_cons, List.nodup_append] at hn
      exact hn.2.2 hmem (List.mem_cons_self _ _)
    have hid : (lookup s e.id).isSome = false := by
      rw [Bool.eq_false_iff]
      intro hsome
      obtain ⟨x, hx, hxid⟩ := lookup_isSome_iff.mp hsome
      exact hfresh (mem_idsOf.mpr ⟨x, hx, hxid⟩)
    have horig : originPresent s e.origin = true := by
      cases ho : e.origin with
      | none => rfl
      | some o =>
        rw [ho] at hc1
        have : o ∈ idsOf s := of_decide_eq_true hc1
        obtain ⟨x, hx, hxid⟩ := mem_idsOf.mp this
        show (lookup s o).isSome = true
        exact lookup_isSome_iff.mpr ⟨x, hx, hxid⟩
    have hstep : integrate s e = Except.ok (s ++ [e]) := by
      unfold integrate
      rw [hid, horig]
      simp
    have hrec : integrateAll (s ++ [e]) rest = Except.ok ((s ++ [e]) ++ rest) := by
      apply integrateAll_ok
      · rw [causalAux_congr rest (idsOf (s ++ [e])) (e.id :: idsOf s)
          (by
            intro x
            unfold idsOf
            simp [or_comm])]
        exact hc2
      · rw [List.append_assoc]
        simpa using hn
    unfold integrateAll
    rw [hstep]
    show integrateAll (s ++ [e]) rest = Except.ok (s ++ e :: rest)
    rw [hrec, List.append_assoc]
    rfl

/-- C1: for any two permutations of a fixed set of operations in which each
operation's left-origin precedes the operation itself, integrating the two
permutations into two independent Engines succeeds and yields identical
materialize() output: replicas holding the same Element set converge to the
same visible order regardless of application order. -/
theorem convergence (l1 l2 : List Element) (hp : l1.Perm l2)
    (h1 : causallyOrdered l1 = true) (h2 : causallyOrdered l2 = true)
    (hn : nodupIds l1) :
    integrateAll [] l1 = Except.ok l1 ∧ integrateAll [] l2 = Except.ok l2 ∧
      materialize l1 = materialize l2 := by
  have hn2 := nodupIds_perm hp hn
  refine ⟨?_, ?_, materialize_perm hp hn⟩
  · have h := integrateAll_ok l1 [] h1 (by simpa using hn)
    simpa using h
  · have h := integrateAll_ok l2 [] h2 (by simpa using hn2)
    simpa using h

/-- Witness for C1 at a concrete pair of causally ordered permutations. -/
theorem convergence_witness :
    (([elA, elB, elC, elX] : List Element).Perm [elA, elX, elB, elC]
      ∧ causallyOrdered [elA, elB, elC, elX] = true
      ∧ causallyOrdered [elA, elX, elB, elC] = true
      ∧ nodupIds [elA, elB, elC, elX])
    ∧ (integrateAll [] [elA, elB, elC, elX] = Except.ok [elA, elB, elC, elX]
      ∧ integrateAll [] [elA, elX, elB, elC] = Except.ok [elA, elX, elB, elC]
      ∧ materialize [elA, elB, elC, elX] = materialize [elA, elX, elB, elC]) :=
  ⟨⟨by decide, by decide, by decide, by decide⟩,
    convergence _ _ (by decide) (by decide) (by decide) (by decide)⟩

/- ## Idempotence -/

theorem lookup_append_self {s : List Element} {e : Element}
    (h : lookup s e.id = none) : lookup (s ++ [e]) e.id = some e := by
  unfold lookup at *
  rw [List.find?_append, h]
  simp

/-- C3: integrate is idempotent: re-integrating an Element whose identifier is
already present is a no-op returning the unchanged state, and integrating any
Element twice leaves the state of the first integration unchanged (hence the
same materialize() output). -/
theorem integrate_idempotent (s : List Element) (e : Element) :
    ((lookup s e.id).isSome = true → integrate s e = Except.ok s)
    ∧ (∀ s', integrate s e = Except.ok s' → integrate s' e = Except.ok s') := by
  constructor
  · intro h
    unfold integrate
    rw [h]
    simp
  · intro s' h
    unfold integrate at h ⊢
    by_cases h1 : (lookup s e.id).isSome = true
    · rw [if_pos h1] at h
      injection h with h
      subst h
      rw [if_pos h1]
    · rw [if_neg h1] at h
      by_cases h2 : originPresent s e.origin = true
      · rw [if_pos h2] at h
        injection h with h
        subst h
        have hnone : lookup s e.id = none :=
          Option.not_isSome_iff_eq_none.mp h1
        have hsome : (lookup (s ++ [e]) e.id).isSome = true := by
          rw [lookup_append_self hnone]
          rfl
        rw [if_pos hsome]
      · rw [if_neg h2] at h
        exact absurd h (by simp)

/-- Witness for C3: a fresh integration followed by a re-integration, and a
re-integration of an already-present Element. -/
theorem integrate_idempotent_witness :
    ((lookup [elA] elA.id).isSome = true ∧ integrate [elA] elA = Except.ok [elA])
    ∧ (integrate [elA] elB = Except.ok [elA, elB]
      ∧ integrate [elA, elB] elB = Except.ok [elA, elB]) :=
  ⟨⟨by decide, (integrate_idempotent [elA] elA).1 (by decide)⟩,
   ⟨by decide, (integrate_idempotent [elA] elB).2 [elA, elB] (by decide)⟩⟩

/- ## The insert/delete/concurrent-insert scenario -/

/-- C2: inserting "abc" at visible index 0 into an empty container yields
materialize() = "abc"; deleting the identifier of 'b' yields "ac"; a
concurrent insert of 'X' from a second replica anchored at 'a' (made without
seeing the deletion), once all operations are integrated into a single Engine
in either order, yields materialize() = "aXc". -/
theorem scenario_insert_delete_concurrent :
    resolve ([] : List Element) 0 = Except.ok none
    ∧ insertChars 0 [] none 0 ('a' :: 'b' :: 'c' :: []) = [elA, elB, elC]
    ∧ materialize [elA, elB, elC] = ('a' :: 'b' :: 'c' :: [])
    ∧ materialize (deleteElem [elA, elB, elC] ⟨0, 1⟩) = ('a' :: 'c' :: [])
    ∧ integrate (deleteElem [elA, elB, elC] ⟨0, 1⟩) elX
        = Except.ok (deleteElem [elA, elB, elC] ⟨0, 1⟩ ++ [elX])
    ∧ materialize (deleteElem [elA, elB, elC] ⟨0, 1⟩ ++ [elX])
        = ('a' :: 'X' :: 'c' :: [])
    ∧ integrateAll [] [elA, elX, elB, elC] = Except.ok [elA, elX, elB, elC]
    ∧ materialize (deleteElem [elA, elX, elB, elC] ⟨0, 1⟩)
        = ('a' :: 'X' :: 'c' :: []) := by
  decide

/- ## Index translation bounds -/

/-- C5: resolve(visible_index) fails with IndexOutOfRange exactly when the
index exceeds the count of non-tombstoned Elements, succeeds otherwise, and on
an empty container accepts only visible index 0 (the start anchor). -/
theorem resolve_index_bounds (s : List Element) (idx : Nat) :
    (resolve s idx = Except.error Err.indexOutOfRange ↔ visibleCount s < idx)
    ∧ (idx ≤ visibleCount s → ∃ a, resolve s idx = Except.ok a)
    ∧ resolve ([] : List Element) 0 = Except.ok none
    ∧ (idx ≠ 0 → resolve ([] : List Element) idx = Except.error Err.indexOutOfRange) := by
  refine ⟨?_, ?_, by decide, ?_⟩
  · unfold resolve
    by_cases h0 : idx = 0
    · subst h0
      simp
    · rw [if_neg h0]
      cases hget : (visibleElems s)[idx - 1]? with
      | some e =>
        have hlt : idx - 1 < (visibleElems s).length := by
          by_contra hge
          rw [List.getElem?_eq_none (by omega)] at hget
          exact absurd hget (by simp)
        constructor
        · intro h
          exact absurd h (by simp)
        · intro h
          unfold visibleCount at h
          omega
      | none =>
        have hge : (visibleElems s).length ≤ idx - 1 := by
          by_contra hlt
          rw [not_le] at hlt
          rw [List.getElem?_eq_getElem hlt] at hget
          exact absurd hget (by simp)
        constructor
        · intro _
          unfold visibleCount
          omega
        · intro _
          rfl
  · intro hle
    unfold resolve
    by_cases h0 : idx = 0
    · subst h0
      exact ⟨none, by simp⟩
    · rw [if_neg h0]
      have hlt : idx - 1 < (visibleElems s).length := by
        unfold visibleCount at hle
        omega
      rw [List.getElem?_eq_getElem hlt]
      exact ⟨some ((visibleElems s).get ⟨idx - 1, hlt⟩).id, rfl⟩
  · intro h0
    unfold resolve
    rw [if_neg h0]
    rw [show visibleElems ([] : List Element) = [] from rfl]
    simp

/-- Witness for C5 at concrete in-range and out-of-range indices. -/
theorem resolve_index_bounds_witness :
    (visibleCount [elA] < 2 ∧ resolve [elA] 2 = Except.error Err.indexOutOfRange)
    ∧ (1 ≤ visibleCount [elA] ∧ ∃ a, resolve [elA] 1 = Except.ok a)
    ∧ ((2 : Nat) ≠ 0 ∧ resolve ([] : List Element) 2 = Except.error Err.indexOutOfRange) :=
  ⟨⟨by decide, (resolve_index_bounds [elA] 2).1.mpr (by decide)⟩,
   ⟨by decide, (resolve_index_bounds [elA] 1).2.1 (by decide)⟩,
   ⟨by decide, (resolve_index_bounds [elA] 2).2.2.2 (by decide)⟩⟩

/- ## Unknown origin -/

/-- C6: integrating a fresh Element whose declared left-origin is not present
in the Sequence fails with UnknownOrigin; the document layer propagates the
error unchanged to the immediate caller and, since no new state is produced,
nothing is buffered internally. -/
theorem integrate_unknown_origin (s : List Element) (e : Element) (oid : Id)
    (ho : e.origin = some oid) (habs : lookup s oid = none)
    (hfresh : lookup s e.id = none) :
    integrate s e = Except.error Err.unknownOrigin
    ∧ ∀ (d : LoroDoc) (n : String), d.released = false → getContainer d n = s →
        loro_integrate d n e = Except.error Err.unknownOrigin := by
  have hcore : integrate s e = Except.error Err.unknownOrigin := by
    unfold integrate
    rw [hfresh]
    have horig : originPresent s e.origin = false := by
      rw [ho]
      show (lookup s oid).isSome = false
      rw [habs]
      rfl
    rw [horig]
    simp
  refine ⟨hcore, ?_⟩
  intro d n hrel hcont
  unfold loro_integrate
  rw [hrel, hcont, hcore]
  simp

/-- Witness for C6: integrating an Element anchored at an absent origin into
an empty engine and an empty document. -/
theorem integrate_unknown_origin_witness :
    (elB.origin = some ⟨0, 0⟩ ∧ lookup [] ⟨0, 0⟩ = none ∧ lookup [] elB.id = none)
    ∧ integrate [] elB = Except.error Err.unknownOrigin
    ∧ loro_integrate (loro_new 0) ("text") elB = Except.error Err.unknownOrigin :=
  ⟨⟨by decide, by decide, by decide⟩,
   (integrate_unknown_origin [] elB ⟨0, 0⟩ (by decide) (by decide) (by decide)).1,
   (integrate_unknown_origin [] elB ⟨0, 0⟩ (by decide) (by decide) (by decide)).2
     (loro_new 0) ("text") (by decide) (by decide)⟩

/- ## Use after release -/

/-- C7: after release() of a Document, every operation through any container
handle of that document fails with UseAfterRelease (get_text, insert,
materialize value, delete, integrate); releasing an already-released document
or container handle is a no-op. -/
theorem use_after_release (d : LoroDoc) (h : TextHandler) (n : String)
    (idx : Nat) (cs : List Char) (i : Id) (e : Element) :
    loro_get_text (loro_free d) n = Except.error Err.useAfterRelease
    ∧ text_insert h (loro_free d) idx cs = Except.error Err.useAfterRelease
    ∧ text_value h (loro_free d) = Except.error Err.useAfterRelease
    ∧ loro_delete (loro_free d) n i = Except.error Err.useAfterRelease
    ∧ loro_integrate (loro_free d) n e = Except.error Err.useAfterRelease
    ∧ loro_free (loro_free d) = loro_free d
    ∧ text_free (text_free h) = text_free h :=
  ⟨rfl, rfl, rfl, rfl, rfl, rfl, rfl⟩

/- ## The example program -/

/-- C9: in the example program every container operation is issued before
loro_free; executed in program order against the model, every call succeeds —
in particular no call returns UseAfterRelease, because no handle is used after
its owning document is freed. -/
theorem example_no_use_after_release :
    loro_get_text (loro_new 0) ("text") = Except.ok (⟨"text", false⟩, exampleDoc1)
    ∧ text_insert ⟨"text", false⟩ exampleDoc1 0 ('a' :: 'b' :: 'c' :: [])
        = Except.ok exampleDoc2
    ∧ text_value ⟨"text", false⟩ exampleDoc2 = Except.ok ('a' :: 'b' :: 'c' :: [])
    ∧ exampleProgram = Except.ok ('a' :: 'b' :: 'c' :: []) := by
  refine ⟨by decide, by decide, by decide, by decide⟩

/-- C10: the example's text_insert targets visible index 0 of the freshly
created, empty "text" container; the index precondition holds (0 never
exceeds the visible count), so the insert resolves its anchor successfully
and cannot return IndexOutOfRange. -/
theorem example_index_in_range :
    getContainer exampleDoc1 ("text") = []
    ∧ visibleCount ([] : List Element) = 0
    ∧ resolve (getContainer exampleDoc1 ("text")) 0 = Except.ok none
    ∧ text_insert ⟨"text", false⟩ exampleDoc1 0 ('a' :: 'b' :: 'c' :: [])
        ≠ Except.error Err.indexOutOfRange
    ∧ text_insert ⟨"text", false⟩ exampleDoc1 0 ('a' :: 'b' :: 'c' :: [])
        = Except.ok exampleDoc2 := by
  decide

/- ## Allocator contract -/

theorem allocate_range_ok {d : LoroDoc} {n : Nat} {i : Id} {d' : LoroDoc}
    (h : allocate_range d n = Except.ok (i, d')) :
    i.replica = d.replica ∧ i.counter = d.counter ∧ d'.counter = d.counter + n
    ∧ d'.replica = d.replica ∧ d.counter + n ≤ idCap := by
  unfold allocate_range at h
  by_cases hc : idCap < d.counter + n
  · rw [if_pos hc] at h
    exact absurd h (by simp)
  · rw [if_neg hc] at h
    injection h with h
    injection h with hi hd
    subst hi
    subst hd
    exact ⟨rfl, rfl, rfl, rfl, by omega⟩

theorem loro_get_text_state {d : LoroDoc} {n : String} {p : TextHandler × LoroDoc}
    (h : loro_get_text d n = Except.ok p) :
    p.2.counter = d.counter ∧ p.2.replica = d.replica := by
  unfold loro_get_text at h
  by_cases h1 : d.released = true
  · rw [if_pos h1] at h
    exact absurd h (by simp)
  · rw [if_neg h1] at h
    by_cases h2 : (d.containers.lookup n).isSome = true
    · rw [if_pos h2] at h
      injection h with h
      subst h
      exact ⟨rfl, rfl⟩
    · rw [if_neg h2] at h
      injection h with h
      subst h
      exact ⟨rfl, rfl⟩

theorem text_insert_state {h : TextHandler} {d : LoroDoc} {idx : Nat}
    {cs : List Char} {d' : LoroDoc} (hok : text_insert h d idx cs = Except.ok d') :
    d'.counter = d.counter + cs.length ∧ d'.replica = d.replica := by
  unfold text_insert at hok
  by_cases h1 : d.released = true
  · rw [if_pos h1] at hok
    exact absurd hok (by simp)
  · rw [if_neg h1] at hok
    cases hres : resolve (getContainer d h.name) idx with
    | error err =>
      rw [hres] at hok
      exact absurd hok (by simp)
    | ok anchor =>
      rw [hres] at hok
      cases halloc : allocate_range d cs.length with
      | error err =>
        rw [halloc] at hok
        exact absurd hok (by simp)
      | ok p =>
        rw [halloc] at hok
        obtain ⟨first, d2⟩ := p
        injection hok with hok
        subst hok
        obtain ⟨_, _, hd2c, hd2r, _⟩ := allocate_range_ok halloc
        exact ⟨hd2c, hd2r⟩

theorem loro_delete_state {d : LoroDoc} {n : String} {i : Id} {d' : LoroDoc}
    (h : loro_delete d n i = Except.ok d') :
    d'.counter = d.counter ∧ d'.replica = d.replica := by
  unfold loro_delete at h
  by_cases h1 : d.released = true
  · rw [if_pos h1] at h
    exact absurd h (by simp)
  · rw [if_neg h1] at h
    injection h with h
    subst h
    exact ⟨rfl, rfl⟩

theorem loro_integrate_state {d : LoroDoc} {n : String} {e : Element} {d' : LoroDoc}
    (h : loro_integrate d n e = Except.ok d') :
    d'.counter = d.counter ∧ d'.replica = d.replica := by
  unfold loro_integrate at h
  by_cases h1 : d.released = true
  · rw [if_pos h1] at h
    exact absurd h (by simp)
  · rw [if_neg h1] at h
    cases hint : integrate (getContainer d n) e with
    | error err =>
      rw [hint] at h
      exact absurd h (by simp)
    | ok s' =>
      rw [hint] at h
      injection h with h
      subst h
      exact ⟨rfl, rfl⟩

theorem applyOp_state (d : LoroDoc) (op : DocOp) :
    d.counter ≤ (applyOp d op).counter ∧ (applyOp d op).replica = d.replica := by
  cases op with
  | getText n =>
    cases hres : loro_get_text d n with
    | ok p =>
      have hs := loro_get_text_state hres
      simp only [applyOp, hres]
      exact ⟨le_of_eq hs.1.symm, hs.2⟩
    | error err =>
      simp only [applyOp, hres]
      exact ⟨le_refl _, trivial⟩
  | insertOp n idx cs =>
    cases hres : text_insert ⟨n, false⟩ d idx cs with
    | ok d' =>
      have hs := text_insert_state hres
      simp only [applyOp, hres]
      exact ⟨by omega, hs.2⟩
    | error err =>
      simp only [applyOp, hres]
      exact ⟨le_refl _, trivial⟩
  | deleteOp n i =>
    cases hres : loro_delete d n i with
    | ok d' =>
      have hs := loro_delete_state hres
      simp only [applyOp, hres]
      exact ⟨le_of_eq hs.1.symm, hs.2⟩
    | error err =>
      simp only [applyOp, hres]
      exact ⟨le_refl _, trivial⟩
  | allocOp n =>
    cases hres : allocate_range d n with
    | ok p =>
      obtain ⟨i, d'⟩ := p
      have hs := allocate_range_ok hres
      simp only [applyOp, hres]
      exact ⟨by omega, hs.2.2.2.1⟩
    | error err =>
      simp only [applyOp, hres]
      exact ⟨le_refl _, trivial⟩
  | integrateOp n e =>
    cases hres : loro_integrate d n e with
    | ok d' =>
      have hs := loro_integrate_state hres
      simp only [applyOp, hres]
      exact ⟨le_of_eq hs.1.symm, hs.2⟩
    | error err =>
      simp only [applyOp, hres]
      exact ⟨le_refl _, trivial⟩
  | releaseOp => exact ⟨le_refl _, rfl⟩

theorem applyOps_state (d : LoroDoc) (ops : List DocOp) :
    d.counter ≤ (applyOps d ops).counter ∧ (applyOps d ops).replica = d.replica := by
  induction ops generalizing d with
  | nil => exact ⟨le_refl _, rfl⟩
  | cons op rest ih =>
    have h1 := applyOp_state d op
    have h2 := ih (applyOp d op)
    refine ⟨le_trans h1.1 h2.1, ?_⟩
    rw [show applyOps d (op :: rest) = applyOps (applyOp d op) rest from rfl]
    rw [h2.2, h1.2]

/-- C8: allocate_range(n) reserves the n consecutive counter values starting
at the document's current counter for the local replica and fails with
CapacityExceeded exactly on counter overflow; across any later operations of
the same document's lifetime, a later allocation starts at or beyond the end
of the earlier range, so a (replica, counter) pair is never handed out
twice. -/
theorem allocate_range_contract (d : LoroDoc) (n1 n2 : Nat) (ops : List DocOp) :
    (allocate_range d n1 = Except.error Err.capacityExceeded ↔ idCap < d.counter + n1)
    ∧ (∀ i1 d1, allocate_range d n1 = Except.ok (i1, d1) →
        i1.replica = d.replica ∧ i1.counter = d.counter ∧ d1.counter = d.counter + n1)
    ∧ (∀ i1 d1 i2 d2, allocate_range d n1 = Except.ok (i1, d1) →
        allocate_range (applyOps d1 ops) n2 = Except.ok (i2, d2) →
        i2.replica = i1.replica ∧ i1.counter + n1 ≤ i2.counter) := by
  refine ⟨?_, ?_, ?_⟩
  · unfold allocate_range
    by_cases hc : idCap < d.counter + n1
    · rw [if_pos hc]
      simp [hc]
    · rw [if_neg hc]
      simp [hc]
  · intro i1 d1 h
    have hs := allocate_range_ok h
    exact ⟨hs.1, hs.2.1, hs.2.2.1⟩
  · intro i1 d1 i2 d2 h1 h2
    have hs1 := allocate_range_ok h1
    have hs2 := allocate_range_ok h2
    have hlife := applyOps_state d1 ops
    constructor
    · rw [hs2.1, hlife.2, hs1.2.2.2.1, hs1.1]
    · have : i2.counter = (applyOps d1 ops).counter := hs2.2.1
      omega

/-- Witness for C8: two allocations of the same document separated by an
intervening allocation. -/
theorem allocate_range_contract_witness :
    (allocate_range (loro_new 0) 2 = Except.ok (⟨0, 0⟩, ⟨false, 0, 2, []⟩)
      ∧ allocate_range (applyOps ⟨false, 0, 2, []⟩ [DocOp.allocOp 5]) 3
          = Except.ok (⟨0, 7⟩, ⟨false, 0, 10, []⟩))
    ∧ ((⟨0, 7⟩ : Id).replica = (⟨0, 0⟩ : Id).replica
      ∧ (⟨0, 0⟩ : Id).counter + 2 ≤ (⟨0, 7⟩ : Id).counter) :=
  ⟨⟨by decide, by decide⟩,
    (allocate_range_contract (loro_new 0) 2 3 [DocOp.allocOp 5]).2.2
      ⟨0, 0⟩ ⟨false, 0, 2, []⟩ ⟨0, 7⟩ ⟨false, 0, 10, []⟩ (by decide) (by decide)⟩

/- ## Tombstone preservation -/

theorem deleteElem_strip (s : List Element) (i : Id) :
    (deleteElem s i).map (fun y => (y.id, y.value, y.origin))
      = s.map (fun y => (y.id, y.value, y.origin)) := by
  unfold deleteElem
  rw [List.map_map]
  apply List.map_congr_left
  intro e _
  by_cases h : e.id = i <;> simp [h]

theorem deleteElem_idem (s : List Element) (i : Id) :
    deleteElem (deleteElem s i) i = deleteElem s i := by
  unfold deleteElem
  rw [List.map_map]
  apply List.map_congr_left
  intro e _
  by_cases h : e.id = i <;> simp [h]

theorem idsOf_deleteElem (s : List Element) (i : Id) :
    idsOf (deleteElem s i) = idsOf s := by
  unfold idsOf deleteElem
  rw [List.map_map]
  apply List.map_congr_left
  intro e _
  by_cases h : e.id = i <;> simp [h]

theorem lookup_deleteElem (s : List Element) (i j : Id) :
    lookup (deleteElem s i) j
      = Option.map (fun y => if y.id = i then ⟨y.id, y.value, y.origin, true⟩ else y)
          (lookup s j) := by
  induction s with
  | nil => rfl
  | cons e rest ih =>
    have hid : ((if e.id = i then (⟨e.id, e.value, e.origin, true⟩ : Element) else e)).id = e.id := by
      by_cases h : e.id = i <;> simp [h]
    show lookup ((if e.id = i then ⟨e.id, e.value, e.origin, true⟩ else e) :: deleteElem rest i) j = _
    by_cases hj : e.id = j
    · unfold lookup
      rw [List.find?_cons_of_pos _ (by rw [hid]; simp [hj])]
      rw [List.find?_cons_of_pos _ (by simp [hj])]
      rfl
    · unfold lookup at ih ⊢
      rw [List.find?_cons_of_neg _ (by rw [hid]; simp [hj])]
      rw [List.find?_cons_of_neg _ (by simp [hj])]
      exact ih

theorem causalAux_map : ∀ (l : List Element) (seen : List Id) (g : Element → Element),
    (∀ e, (g e).id = e.id ∧ (g e).origin = e.origin) →
    causalAux seen (l.map g) = causalAux seen l
  | [], _, _, _ => rfl
  | e :: rest, seen, g, hg => by
    show ((match (g e).origin with
           | none => true
           | some o => decide (o ∈ seen)) && causalAux ((g e).id :: seen) (rest.map g))
      = ((match e.origin with
           | none => true
           | some o => decide (o ∈ seen)) && causalAux (e.id :: seen) rest)
    rw [(hg e).1, (hg e).2, causalAux_map rest (e.id :: seen) g hg]

theorem causalAux_deleteElem (s : List Element) (seen : List Id) (i : Id) :
    causalAux seen (deleteElem s i) = causalAux seen s := by
  unfold deleteElem
  apply causalAux_map
  intro e
  by_cases h : e.id = i <;> simp [h]

theorem causalAux_append_one : ∀ (l : List Element) (seen : List Id) (e : Element),
    causalAux seen l = true →
    (match e.origin with
     | none => True
     | some o => o ∈ seen ∨ o ∈ idsOf l) →
    causalAux seen (l ++ [e]) = true
  | [], seen, e, _, ho => by
    show ((match e.origin with
           | none => true
           | some o => decide (o ∈ seen)) && causalAux (e.id :: seen) []) = true
    cases hor : e.origin with
    | none => rfl
    | some o =>
      rw [hor] at ho
      rcases ho with ho | ho
      · simp [ho, causalAux]
      · exact absurd ho (by simp [idsOf])
  | f :: rest, seen, e, hc, ho => by
    rw [show causalAux seen (f :: rest)
        = ((match f.origin with
            | none => true
            | some o => decide (o ∈ seen)) && causalAux (f.id :: seen) rest) from rfl,
      Bool.and_eq_true] at hc
    show ((match f.origin with
           | none => true
           | some o => decide (o ∈ seen)) && causalAux (f.id :: seen) (rest ++ [e])) = true
    rw [Bool.and_eq_true]
    refine ⟨hc.1, ?_⟩
    apply causalAux_append_one rest (f.id :: seen) e hc.2
    cases hor : e.origin with
    | none => trivial
    | some o =>
      rw [hor] at ho
      rcases ho with ho | ho
      · exact Or.inl (List.mem_cons_of_mem _ ho)
      · rw [show idsOf (f :: rest) = f.id :: idsOf rest from rfl] at ho
        rcases List.mem_cons.mp ho with ho | ho
        · exact Or.inl (ho ▸ List.mem_cons_self _ _)
        · exact Or.inr ho

theorem causalAux_origin : ∀ (l : List Element) (seen : List Id),
    causalAux seen l = true →
    ∀ (k : Nat) (hk : k < l.length) (oid : Id), (l.get ⟨k, hk⟩).origin = some oid →
      oid ∈ seen ∨ ∃ (j : Nat) (hj : j < l.length), j < k ∧ (l.get ⟨j, hj⟩).id = oid
  | [], _, _, k, hk, _, _ => absurd hk (by simp)
  | e :: rest, seen, hc, k, hk, oid, horig => by
    rw [show causalAux seen (e :: rest)
        = ((match e.origin with
            | none => true
            | some o => decide (o ∈ seen)) && causalAux (e.id :: seen) rest) from rfl,
      Bool.and_eq_true] at hc
    cases k with
    | zero =>
      have he : (e :: rest).get ⟨0, hk⟩ = e := rfl
      rw [he] at horig
      rw [horig] at hc
      exact Or.inl (of_decide_eq_true hc.1)
    | succ k =>
      have hk' : k < rest.length := by
        have := hk
        simp at this
        omega
      have hget : (e :: rest).get ⟨k + 1, hk⟩ = rest.get ⟨k, hk'⟩ := rfl
      rw [hget] at horig
      rcases causalAux_origin rest (e.id :: seen) hc.2 k hk' oid horig with hmem | ⟨j, hj, hjk, hjid⟩
      · rcases List.mem_cons.mp hmem with hmem | hmem
        · refine Or.inr ⟨0, by simp, by omega, ?_⟩
          rw [show (e :: rest).get ⟨0, by simp⟩ = e from rfl]
          exact hmem.symm
        · exact Or.inl hmem
      · refine Or.inr ⟨j + 1, by simp; omega, by omega, ?_⟩
        rw [show (e :: rest).get ⟨j + 1, by simp; omega⟩ = rest.get ⟨j, hj⟩ from rfl]
        exact hjid

theorem pathLt_concat : ∀ (p : List Id) (a : Id), pathLt p (p ++ [a])
  | [], _ => trivial
  | _ :: bs, a => Or.inr ⟨rfl, pathLt_concat bs a⟩

theorem lookup_append_left {s : List Element} {i : Id} {x : Element}
    (h : lookup s i = some x) (t : List Element) : lookup (s ++ t) i = some x := by
  unfold lookup at *
  rw [List.find?_append, h]
  rfl

theorem get_append_last (l : List Element) (a : Element)
    (h : l.length < (l ++ [a]).length) : (l ++ [a]).get ⟨l.length, h⟩ = a := by
  rw [List.get_eq_getElem]
  exact List.getElem_concat_length l a l.length rfl h

theorem pathTo_none (s : List Element) : ∀ (f : Nat), pathTo s f none = []
  | 0 => rfl
  | _ + 1 => rfl

/-- In a causally ordered arena, the path of a stored element is computed
identically by every fuel bound exceeding the element's index. -/
theorem pathTo_stable (s : List Element) (hc : causallyOrdered s = true)
    (hn : nodupIds s) :
    ∀ (k : Nat) (hk : k < s.length) (f : Nat), k < f →
      pathTo s f (some ((s.get ⟨k, hk⟩).id))
        = pathTo s (k + 1) (some ((s.get ⟨k, hk⟩).id)) := by
  intro k
  induction k using Nat.strong_induction_on with
  | _ k ih =>
    intro hk f hf
    obtain ⟨f', rfl⟩ : ∃ f', f = f' + 1 := ⟨f - 1, by omega⟩
    have hlk : lookup s ((s.get ⟨k, hk⟩).id) = some (s.get ⟨k, hk⟩) :=
      mem_lookup hn (List.get_mem s k hk)
    have hu : ∀ g, pathTo s (g + 1) (some ((s.get ⟨k, hk⟩).id))
        = pathTo s g ((s.get ⟨k, hk⟩).origin) ++ [(s.get ⟨k, hk⟩).id] := by
      intro g
      show (match lookup s ((s.get ⟨k, hk⟩).id) with
            | none => []
            | some e => pathTo s g e.origin ++ [(s.get ⟨k, hk⟩).id]) = _
      rw [hlk]
    rw [hu f', hu k]
    cases horig : (s.get ⟨k, hk⟩).origin with
    | none => rw [pathTo_none, pathTo_none]
    | some oid =>
      rcases causalAux_origin s [] hc k hk oid horig with habs | ⟨j, hj, hjk, hjid⟩
      · exact absurd habs (List.not_mem_nil oid)
      · have h1 : pathTo s f' (some oid) = pathTo s (j + 1) (some oid) := by
          rw [← hjid]
          exact ih j hjk hj f' (by omega)
        have h2 : pathTo s k (some oid) = pathTo s (j + 1) (some oid) := by
          rw [← hjid]
          exact ih j hjk hj k (by omega)
        rw [h1, h2]

theorem pairwise_before {α : Type _} {R : α → α → Prop} {a b : α} :
    ∀ (l : List α), l.Pairwise R → a ∈ l → b ∈ l → a ≠ b → ¬ R b a →
      List.Sublist [a, b] l
  | [], _, ha, _, _, _ => absurd ha (List.not_mem_nil a)
  | h :: t, hp, ha, hb, hne, hnR => by
    rcases List.mem_cons.mp ha with rfl | hat
    · have hbt : b ∈ t := by
        rcases List.mem_cons.mp hb with rfl | hbt
        · exact absurd rfl hne
        · exact hbt
      exact List.Sublist.cons₂ a (List.singleton_sublist.mpr hbt)
    · rcases List.mem_cons.mp hb with rfl | hbt
      · have hR : R b a := (List.pairwise_cons.mp hp).1 a hat
        exact absurd hR hnR
      · exact List.Sublist.cons h
          (pairwise_before t (List.pairwise_cons.mp hp).2 hat hbt hne hnR)

/-- C4: delete(identifier) only sets the tombstoned flag (identifier, value
and origin of every Element are untouched), is idempotent and never removes
the Element from the backing store; consequently a tombstoned Element remains
a valid anchor: integrating a fresh Element anchored at it succeeds, the new
Element appears in the visible output, and it is placed after its tombstoned
anchor in the internal order. -/
theorem tombstone_preservation (s : List Element) (i : Id) (x e : Element)
    (hc : causallyOrdered s = true) (hn : nodupIds s)
    (hx : lookup s i = some x)
    (ho : e.origin = some i) (hfresh : lookup s e.id = none) (ht : e.tomb = false) :
    (deleteElem s i).map (fun y => (y.id, y.value, y.origin))
        = s.map (fun y => (y.id, y.value, y.origin))
    ∧ deleteElem (deleteElem s i) i = deleteElem s i
    ∧ lookup (deleteElem s i) i = some ⟨x.id, x.value, x.origin, true⟩
    ∧ integrate (deleteElem s i) e = Except.ok (deleteElem s i ++ [e])
    ∧ List.Sublist [⟨x.id, x.value, x.origin, true⟩, e]
        (linearize (deleteElem s i ++ [e]))
    ∧ e.value ∈ materialize (deleteElem s i ++ [e]) := by
  obtain ⟨hxmem, hxid⟩ := lookup_mem hx
  have hlook' : lookup (deleteElem s i) i = some ⟨x.id, x.value, x.origin, true⟩ := by
    rw [lookup_deleteElem, hx]
    show some (if x.id = i then (⟨x.id, x.value, x.origin, true⟩ : Element) else x) = _
    rw [if_pos hxid]
  have hfresh' : lookup (deleteElem s i) e.id = none := by
    rw [lookup_deleteElem, hfresh]
    rfl
  have hint : integrate (deleteElem s i) e = Except.ok (deleteElem s i ++ [e]) := by
    unfold integrate
    rw [hfresh']
    have horigp : originPresent (deleteElem s i) e.origin = true := by
      rw [ho]
      show (lookup (deleteElem s i) i).isSome = true
      rw [hlook']
      rfl
    rw [horigp]
    simp
  have hids'' : idsOf (deleteElem s i ++ [e]) = idsOf s ++ [e.id] := by
    unfold idsOf
    rw [List.map_append]
    rw [show (deleteElem s i).map (fun y => y.id) = idsOf (deleteElem s i) from rfl,
      idsOf_deleteElem]
    rfl
  have heid : e.id ∉ idsOf s := by
    intro hmem
    obtain ⟨y, hy, hyid⟩ := mem_idsOf.mp hmem
    exact absurd hyid ((lookup_eq_none.mp hfresh) y hy)
  have hn'' : nodupIds (deleteElem s i ++ [e]) := by
    unfold nodupIds
    rw [hids'', List.nodup_append]
    refine ⟨hn, List.nodup_singleton _, ?_⟩
    intro a ha hb
    rw [List.mem_singleton] at hb
    subst hb
    exact heid ha
  have hc'' : causallyOrdered (deleteElem s i ++ [e]) = true := by
    apply causalAux_append_one
    · rw [causalAux_deleteElem]
      exact hc
    · rw [ho]
      show i ∈ ([] : List Id) ∨ i ∈ idsOf (deleteElem s i)
      right
      rw [idsOf_deleteElem]
      exact mem_idsOf.mpr ⟨x, hxmem, hxid⟩
  have hx'mem : (⟨x.id, x.value, x.origin, true⟩ : Element) ∈ deleteElem s i ++ [e] :=
    List.mem_append_left _ (lookup_mem hlook').1
  have hemem : e ∈ deleteElem s i ++ [e] :=
    List.mem_append_right _ (List.mem_singleton.mpr rfl)
  have hne : (⟨x.id, x.value, x.origin, true⟩ : Element) ≠ e := by
    intro heq
    have hide : e.id = i := by
      rw [← heq]
      show x.id = i
      exact hxid
    rw [hide] at hfresh
    rw [hfresh] at hx
    exact absurd hx (by simp)
  have hlen : (deleteElem s i).length < (deleteElem s i ++ [e]).length := by simp
  have hgetE : (deleteElem s i ++ [e]).get ⟨(deleteElem s i).length, hlen⟩ = e :=
    get_append_last _ _ hlen
  have horigE : ((deleteElem s i ++ [e]).get ⟨(deleteElem s i).length, hlen⟩).origin
      = some i := by
    rw [hgetE, ho]
  rcases causalAux_origin (deleteElem s i ++ [e]) [] hc'' (deleteElem s i).length hlen i
      horigE with habs | ⟨j, hj, hjlen, hjid⟩
  · exact absurd habs (List.not_mem_nil i)
  have hgetj : (deleteElem s i ++ [e]).get ⟨j, hj⟩ = ⟨x.id, x.value, x.origin, true⟩ := by
    apply nodup_elem_eq hn'' (List.get_mem _ j hj) hx'mem
    show ((deleteElem s i ++ [e]).get ⟨j, hj⟩).id = x.id
    rw [hjid, hxid]
  have hpp : pathTo (deleteElem s i ++ [e]) (deleteElem s i).length x.origin
      = pathTo (deleteElem s i ++ [e]) ((deleteElem s i).length + 1) x.origin := by
    cases horx : x.origin with
    | none => rw [pathTo_none, pathTo_none]
    | some j' =>
      have horigJ : ((deleteElem s i ++ [e]).get ⟨j, hj⟩).origin = some j' := by
        rw [hgetj]
        show x.origin = some j'
        exact horx
      rcases causalAux_origin _ [] hc'' j hj j' horigJ with habs | ⟨k', hk', hk'j, hk'id⟩
      · exact absurd habs (List.not_mem_nil j')
      · have h1 : pathTo (deleteElem s i ++ [e]) (deleteElem s i).length (some j')
            = pathTo (deleteElem s i ++ [e]) (k' + 1) (some j') := by
          rw [← hk'id]
          exact pathTo_stable _ hc'' hn'' k' hk' (deleteElem s i).length (by omega)
        have h2 : pathTo (deleteElem s i ++ [e]) ((deleteElem s i).length + 1) (some j')
            = pathTo (deleteElem s i ++ [e]) (k' + 1) (some j') := by
          rw [← hk'id]
          exact pathTo_stable _ hc'' hn'' k' hk' ((deleteElem s i).length + 1) (by omega)
        rw [h1, h2]
  have hlook'' : lookup (deleteElem s i ++ [e]) i = some ⟨x.id, x.value, x.origin, true⟩ :=
    lookup_append_left hlook' [e]
  have hlenS : (deleteElem s i ++ [e]).length = (deleteElem s i).length + 1 := by simp
  have hpathE : pathOf (deleteElem s i ++ [e]) e
      = (pathTo (deleteElem s i ++ [e]) ((deleteElem s i).length + 1) x.origin ++ [i])
          ++ [e.id] := by
    unfold pathOf
    rw [ho, hlenS]
    congr 1
    show (match lookup (deleteElem s i ++ [e]) i with
          | none => []
          | some y =>
            pathTo (deleteElem s i ++ [e]) (deleteElem s i).length y.origin ++ [i]) = _
    rw [hlook'']
    show pathTo (deleteElem s i ++ [e]) (deleteElem s i).length x.origin ++ [i] = _
    rw [hpp]
  have hpathX : pathOf (deleteElem s i ++ [e]) (⟨x.id, x.value, x.origin, true⟩ : Element)
      = pathTo (deleteElem s i ++ [e]) ((deleteElem s i).length + 1) x.origin ++ [i] := by
    unfold pathOf
    rw [hlenS]
    show pathTo (deleteElem s i ++ [e]) ((deleteElem s i).length + 1) x.origin ++ [x.id] = _
    rw [hxid]
  have hlt : pathLt (pathOf (deleteElem s i ++ [e]) ⟨x.id, x.value, x.origin, true⟩)
      (pathOf (deleteElem s i ++ [e]) e) := by
    rw [hpathE, hpathX]
    exact pathLt_concat _ e.id
  have hsub : List.Sublist [⟨x.id, x.value, x.origin, true⟩, e]
      (linearize (deleteElem s i ++ [e])) := by
    apply pairwise_before (linearize _) (linearize_sorted _)
      ((linearize_perm_self _).mem_iff.mpr hx'mem)
      ((linearize_perm_self _).mem_iff.mpr hemem) hne
    intro hle
    exact hle hlt
  have hval : e.value ∈ materialize (deleteElem s i ++ [e]) := by
    unfold materialize visibleElems
    apply List.mem_map.mpr
    refine ⟨e, ?_, rfl⟩
    apply List.mem_filter.mpr
    refine ⟨(linearize_perm_self _).mem_iff.mpr hemem, ?_⟩
    rw [ht]
    rfl
  exact ⟨deleteElem_strip s i, deleteElem_idem s i, hlook', hint, hsub, hval⟩

/-- Witness for C4: delete elB from [elA, elB], then integrate elC anchored
at the tombstoned elB. -/
theorem tombstone_preservation_witness :
    (causallyOrdered [elA, elB] = true ∧ nodupIds [elA, elB]
      ∧ lookup [elA, elB] ⟨0, 1⟩ = some elB ∧ elC.origin = some ⟨0, 1⟩
      ∧ lookup [elA, elB] elC.id = none ∧ elC.tomb = false)
    ∧ ((deleteElem [elA, elB] ⟨0, 1⟩).map (fun y => (y.id, y.value, y.origin))
        = [elA, elB].map (fun y => (y.id, y.value, y.origin))
      ∧ deleteElem (deleteElem [elA, elB] ⟨0, 1⟩) ⟨0, 1⟩ = deleteElem [elA, elB] ⟨0, 1⟩
      ∧ lookup (deleteElem [elA, elB] ⟨0, 1⟩) ⟨0, 1⟩
          = some ⟨elB.id, elB.value, elB.origin, true⟩
      ∧ integrate (deleteElem [elA, elB] ⟨0, 1⟩) elC
          = Except.ok (deleteElem [elA, elB] ⟨0, 1⟩ ++ [elC])
      ∧ List.Sublist [⟨elB.id, elB.value, elB.origin, true⟩, elC]
          (linearize (deleteElem [elA, elB] ⟨0, 1⟩ ++ [elC]))
      ∧ elC.value ∈ materialize (deleteElem [elA, elB] ⟨0, 1⟩ ++ [elC])) :=
  ⟨⟨by decide, by decide, by decide, by decide, by decide, by decide⟩,
    tombstone_preservation [elA, elB] ⟨0, 1⟩ elB elC
      (by decide) (by decide) (by decide) (by decide) (by decide) (by decide)⟩
